import Mathlib

/-!
Verification of the code accumulator and evaluation-result formatter of the
liz repository (`src/eval.rs`).  Rust strings are modelled as lists of Unicode
scalar values (`List Char`); byte-level operations (`str::len`, byte slicing)
are modelled through the UTF-8 encoding size of each scalar value, with
`Option` capturing the panic of slicing at a non-character-boundary.  The
external rust_lisp evaluator (`parse`, `interpreter::eval`, `default_env`) is
not part of the repository; it enters only as parameters of the session model,
plus one tiny concrete instance modelled from the spec for concrete runs.
-/

namespace Liz

/-- Characters of a Rust `String`/`&str`, as a list of Unicode scalar values. -/
abbrev Str := List Char

/-- The backtick character U+0060. -/
def btChar : Char := Char.ofNat 96

/-- Rust `char::is_whitespace`: the Unicode `White_Space` property. -/
def isRustWhitespace (c : Char) : Bool :=
  decide ((0x09 ≤ c.toNat ∧ c.toNat ≤ 0x0D) ∨ c.toNat = 0x20 ∨ c.toNat = 0x85 ∨
    c.toNat = 0xA0 ∨ c.toNat = 0x1680 ∨ (0x2000 ≤ c.toNat ∧ c.toNat ≤ 0x200A) ∨
    c.toNat = 0x2028 ∨ c.toNat = 0x2029 ∨ c.toNat = 0x202F ∨ c.toNat = 0x205F ∨
    c.toNat = 0x3000)

/-- Rust `str::trim_start`. -/
def trimStart (s : Str) : Str := s.dropWhile isRustWhitespace

/-- Rust `str::trim_end`. -/
def trimEnd (s : Str) : Str := (s.reverse.dropWhile isRustWhitespace).reverse

/-- Rust `str::trim`. -/
def trim (s : Str) : Str := trimEnd (trimStart s)

/-- Rust `str::strip_prefix` with a string pattern (first argument). -/
def stripPre : Str → Str → Option Str
  | [], s => some s
  | _ :: _, [] => none
  | p :: ps, c :: cs => if c = p then stripPre ps cs else none

/-- Rust `str::strip_suffix` with a string pattern (first argument). -/
def stripSuf (pat s : Str) : Option Str :=
  (stripPre pat.reverse s.reverse).map List.reverse

/-- The characters of the triple-backtick fence. -/
def fence : Str := [btChar, btChar, btChar]

/-- The language-tag characters stripped after the opening fence. -/
def lispTag : Str := ['l', 'i', 's', 'p', '\n']

/-- The closing part a wrapped message ends with: newline plus fence. -/
def nlFence : Str := '\n' :: fence

/-- A single backtick, as a pattern. -/
def tick : Str := [btChar]

/-- First half of `DiscordCode::strip_discord_code`: strip optional leading
triple-backtick fence (then an optional language tag) or a single backtick. -/
def stripFront (code : Str) : Str :=
  match stripPre fence (trim code) with
  | some t => (stripPre lispTag t).getD t
  | none => (stripPre tick code).getD code

/-- Second half of `DiscordCode::strip_discord_code`: strip an optional
trailing triple-backtick fence (from the trimmed text) or a single backtick. -/
def stripBack (s : Str) : Str :=
  match stripSuf fence (trim s) with
  | some t => t
  | none => (stripSuf tick s).getD s

/-- `DiscordCode::strip_discord_code` from `src/eval.rs`. -/
def strip_discord_code (code : Str) : Str := trim (stripBack (stripFront code))

/-- `DiscordCode::as_discord_code`: `format!("{}lisp\n{}\n{}", fence, s, fence)`. -/
def as_discord_code (s : Str) : Str := fence ++ lispTag ++ s ++ nlFence

/-- Strip one trailing carriage return, as Rust `str::lines` does for lines
terminated by `\r\n`. -/
def stripCR (l : Str) : Str := (stripSuf ['\r'] l).getD l

/-- Iteration of Rust `str::lines`: `cur` is the line being accumulated.  A
line ended by `'\n'` has a trailing `'\r'` stripped; a final fragment without a
terminator is yielded as is, and an empty final fragment is not yielded. -/
def linesAux : Str → Str → List Str
  | cur, [] => if cur = [] then [] else [cur]
  | cur, c :: cs => if c = '\n' then stripCR cur :: linesAux [] cs else linesAux (cur ++ [c]) cs

/-- Rust `str::lines`. -/
def lines (s : Str) : List Str := linesAux [] s

/-- Join lines back into a buffer, each line followed by a newline: the
`format!("{}\n", line)` rebuild of `UserCode::del`. -/
def joinLines : List Str → Str
  | [] => []
  | l :: ls => l ++ '\n' :: joinLines ls

/-- The enumerate/filter_map rebuild loop of `UserCode::del`: every line whose
index differs from the target is kept followed by `'\n'`; the line at the
target index is returned as the deleted line. -/
def delRebuild : List Str → Nat → Option Str × Str
  | [], _ => (none, [])
  | l :: ls, 0 => (some l, joinLines ls)
  | l :: ls, n + 1 =>
      let r := delRebuild ls n
      (r.1, l ++ '\n' :: r.2)

/-- `UserCode::del`: a negative index deletes nothing; otherwise the line at
saturating index `lines.count() - (del_idx + 1)` is removed and returned. -/
def del (buf : Str) (delIdx : Int) : Option Str × Str :=
  if delIdx < 0 then (none, buf)
  else delRebuild (lines buf) ((lines buf).length - (delIdx.toNat + 1))

/-- The `Balanced` enum of `src/eval.rs`.  `NoMissing n` is the spec's
`MissingClosers(n)` (n unmatched openers), `NoTrailing n` is the spec's
`ExtraClosers(n)` (n unmatched closers). -/
inductive Balanced
  | Yes
  | NoMissing (n : Nat)
  | NoTrailing (n : Nat)
deriving DecidableEq

/-- Two's-complement wrap of an integer into the `i32` range
`[-2147483648, 2147483647]`, the result of an overflowing `i32` operation in
a release-profile Rust build. -/
def wrap32 (n : Int) : Int := (n + 2147483648) % 4294967296 - 2147483648

/-- One step of the balance scan: `'('` increments and `')'` decrements the
`i32` counter `n_opened`; the increment and decrement wrap at the `i32`
boundaries as a release build does (a debug build panics on the same
character, so past the boundary neither profile matches the unbounded
count). -/
def balStep (n : Int) (c : Char) : Int :=
  if c = '(' then wrap32 (n + 1) else if c = ')' then wrap32 (n - 1) else n

/-- The final value of the `i32` counter of `UserCode::balance`. -/
def balanceCount (s : Str) : Int := s.foldl balStep 0

/-- `UserCode::balance`. -/
def balance (s : Str) : Balanced :=
  if balanceCount s = 0 then Balanced.Yes
  else if balanceCount s < 0 then Balanced.NoTrailing (-(balanceCount s)).toNat
  else Balanced.NoMissing (balanceCount s).toNat

/-- Occurrences of a character in a string. -/
def countCh (c : Char) : Str → Nat
  | [] => 0
  | d :: ds => (if d = c then 1 else 0) + countCh c ds

/-- The unbounded net bracket count of a text: openers minus closers. -/
def netCount (s : Str) : Int := (countCh '(' s : Int) - (countCh ')' s : Int)

/-- `indents` tab characters. -/
def tabs (n : Nat) : Str := List.replicate n '\t'

/-- The inner character loop of `UserCode::append` over one source line: a
closing bracket is pushed directly; any other character first breaks the line
when the buffer ends with `')'`, pushes the indent tabs, then the character and
the remainder of the line in one shot. -/
def appendLineChars (indents : Nat) : Str → Str → Str
  | buf, [] => buf
  | buf, c :: cs =>
      if c = ')' then appendLineChars indents (buf ++ [')']) cs
      else
        (if buf.getLast? = some ')' then buf ++ ['\n'] else buf) ++ tabs indents ++ c :: cs

/-- `UserCode::append`: indent depth from the current balance, strip the
markup, then process each physical line of the fragment. -/
def append (buf src : Str) : Str :=
  let indents :=
    match balance buf with
    | Balanced.NoMissing n => n
    | _ => 0
  (lines (strip_discord_code src)).foldl (appendLineChars indents) buf

/-- Bytes of the UTF-8 encoding of one scalar value (Rust `char::len_utf8`). -/
def utf8Size (c : Char) : Nat :=
  if c.toNat < 0x80 then 1 else if c.toNat < 0x800 then 2
  else if c.toNat < 0x10000 then 3 else 4

/-- Rust `str::len`: length in bytes of the UTF-8 encoding. -/
def byteLen : Str → Nat
  | [] => 0
  | c :: cs => utf8Size c + byteLen cs

/-- Rust byte slicing `&s[..n]`: `none` models the panic when `n` is not a
character boundary (or exceeds the length). -/
def byteTake : Nat → Str → Option Str
  | 0, _ => some []
  | _ + 1, [] => none
  | n + 1, c :: cs =>
      if utf8Size c ≤ n + 1 then (byteTake (n + 1 - utf8Size c) cs).map (c :: ·) else none

/-- Rust byte slicing `&s[n..]`: `none` models the panic when `n` is not a
character boundary (or exceeds the length). -/
def byteDrop : Nat → Str → Option Str
  | 0, s => some s
  | _ + 1, [] => none
  | n + 1, c :: cs =>
      if utf8Size c ≤ n + 1 then byteDrop (n + 1 - utf8Size c) cs else none

/-- The ellipsis marker inserted between the two slices. -/
def ellipsis : Str := ['.', '.', '.']

/-- The value-rendering branch of `impl Display for LisEnv`: a text of more
than 64 bytes is truncated to `&value[..32]`, `"..."`, `&value[len - 29..]`;
`none` models the byte-slicing panic. -/
def renderTrunc (v : Str) : Option Str :=
  if 64 < byteLen v then
    match byteTake 32 v, byteDrop (byteLen v - 29) v with
    | some a, some b => some (a ++ ellipsis ++ b)
    | _, _ => none
  else some v

/-- Rendering of one recorded outcome: the captured output (if non-empty) on
its own line, then the (possibly truncated) value or the error text, then a
newline. -/
def displayOne {V E : Type} (rv : V → Str) (re : E → Str) (x : Except E V × Str) : Option Str :=
  let pr : Str := if x.2 = [] then [] else x.2 ++ ['\n']
  match x.1 with
  | Except.ok v => (renderTrunc (rv v)).map (fun t => pr ++ t ++ ['\n'])
  | Except.error e => some (pr ++ re e ++ ['\n'])

/-- `impl Display for LisEnv`: render every recorded outcome in order. -/
def displayResults {V E : Type} (rv : V → Str) (re : E → Str) : List (Except E V × Str) → Option Str
  | [] => some []
  | x :: xs =>
      match displayOne rv re x, displayResults rv re xs with
      | some a, some b => some (a ++ b)
      | _, _ => none

/-- State of `LisEnv`: the evaluation environment, the shared capture buffer
written to by the overridden print primitive, and the recorded results. -/
structure LisEnvSt (Env V E : Type) where
  env : Env
  output : Str
  results : List (Except E V × Str)

/-- `LisEnv::new`: fresh environment, empty capture buffer, no results. -/
def lisEnvNew {Env V E : Type} (env0 : Env) : LisEnvSt Env V E := ⟨env0, [], []⟩

/-- `LisEnv::eval`: evaluate one expression, record its result paired with the
captured output, then clear the capture buffer.  `evalExpr` is the external
`interpreter::eval` together with the print override: from an environment and
an expression it returns the result, the text printed during evaluation, and
the updated environment. -/
def lisEnvEval {Env V E X : Type} (evalExpr : Env → X → Except E V × Str × Env)
    (st : LisEnvSt Env V E) (e : X) : LisEnvSt Env V E :=
  let r := evalExpr st.env e
  ⟨r.2.2, [], st.results ++ [(r.1, st.output ++ r.2.1)]⟩

/-- The parse-results loop of `UserCode::eval`: `Ok` expressions are evaluated
in order, parse errors are skipped silently. -/
def runPass {Env V E X P : Type} (evalExpr : Env → X → Except E V × Str × Env) :
    LisEnvSt Env V E → List (Except P X) → LisEnvSt Env V E
  | st, [] => st
  | st, Except.ok e :: rest => runPass evalExpr (lisEnvEval evalExpr st e) rest
  | st, Except.error _ :: rest => runPass evalExpr st rest

/-- Sequential evaluation of a list of already-parsed expressions. -/
def evalSeq {Env V E X : Type} (evalExpr : Env → X → Except E V × Str × Env) :
    LisEnvSt Env V E → List X → LisEnvSt Env V E
  | st, [] => st
  | st, e :: es => evalSeq evalExpr (lisEnvEval evalExpr st e) es

/-- The successfully parsed expressions, in order. -/
def okExprs {P X : Type} (items : List (Except P X)) : List X :=
  items.filterMap Except.toOption

/-- `UserCode::eval`: a fresh `LisEnv` is created by `LisEnv::new`, every
`Ok` parse of the buffer is evaluated against it, and the results are
rendered via the `Display` implementation. -/
def userCodeEval {Env V E X P : Type} (parse : Str → List (Except P X))
    (evalExpr : Env → X → Except E V × Str × Env) (env0 : Env)
    (rv : V → Str) (re : E → Str) (buf : Str) : Option Str :=
  displayResults rv re (runPass evalExpr (lisEnvNew env0) (parse buf)).results

/-- One conversation as the source structures it: the only state carried from
one call of `UserCode::eval` to the next is the buffer; every call builds its
environment afresh with `LisEnv::new`. -/
def sessionEvalTrace {Env V E X P : Type} (parse : Str → List (Except P X))
    (evalExpr : Env → X → Except E V × Str × Env) (env0 : Env)
    (bufs : List Str) : List (LisEnvSt Env V E) :=
  bufs.map fun b => runPass evalExpr (lisEnvNew env0) (parse b)

/-- `UserCode::respond`: the wrapped buffer, plus the wrapped evaluation
rendering once the buffer is balanced. -/
def respond {Env V E X P : Type} (parse : Str → List (Except P X))
    (evalExpr : Env → X → Except E V × Str × Env) (env0 : Env)
    (rv : V → Str) (re : E → Str) (buf : Str) : Option Str :=
  match balance buf with
  | Balanced.Yes =>
      (userCodeEval parse evalExpr env0 rv re buf).map
        (fun ev => as_discord_code buf ++ as_discord_code ev)
  | _ => some (as_discord_code buf)

/-- Modelled from the spec: a minimal concrete instance of the external
evaluator boundary (the `parse`/`eval` of the rust_lisp crate, which is not
part of this repository), with a single definable binding `x`.  `defX` stands
for the expression `(define x 1)` and adds the binding; `refX` stands for the
expression `x` and is a runtime error when `x` is undefined. -/
inductive MExpr
  | defX
  | refX

/-- Modelled from the spec: an environment is the list of defined symbols. -/
abbrev MEnv := List Str

/-- Modelled from the spec: evaluation of the two expressions of `MExpr`
against an `MEnv`, printing nothing. -/
def mEvalExpr (env : MEnv) (e : MExpr) : Except Str Str × Str × MEnv :=
  match e with
  | MExpr.defX => (Except.ok ("x".toList), [], "x".toList :: env)
  | MExpr.refX =>
      if "x".toList ∈ env then (Except.ok ("1".toList), [], env)
      else (Except.error ("undefined symbol x".toList), [], env)

/-- Modelled from the spec: the external parser at the three buffer texts used
in the concrete runs below; anything else is a parse error. -/
def mParse (s : Str) : List (Except Str MExpr) :=
  if s = "(define x 1)".toList then [Except.ok MExpr.defX]
  else if s = "x".toList then [Except.ok MExpr.refX]
  else if s = "(define x 1)\nx".toList then [Except.ok MExpr.defX, Except.ok MExpr.refX]
  else [Except.error ("parse error".toList)]

/-- Textual rendering of the lisp string value holding 16 copies of `é` and
32 copies of `a`: a quote, 16 two-byte characters, 32 ASCII characters and a
quote — 66 UTF-8 bytes in total, with byte 32 falling inside the 16th `é`. -/
def badVal : Str := '"' :: (List.replicate 16 'é' ++ List.replicate 32 'a') ++ ['"']

/-- A rendering of 16 copies of `é` and 33 copies of `a`: 49 characters but
65 UTF-8 bytes. -/
def mediumVal : Str := List.replicate 16 'é' ++ List.replicate 33 'a'

/-! ## Helper lemmas -/

theorem wrap32_eq_self (x : Int) (h1 : -2147483648 ≤ x) (h2 : x ≤ 2147483647) :
    wrap32 x = x := by
  rw [wrap32]
  omega

theorem wrap32_add_left (x y : Int) : wrap32 (wrap32 x + y) = wrap32 (x + y) := by
  rw [wrap32, wrap32, wrap32]
  omega

theorem countCh_append (c : Char) (x y : Str) :
    countCh c (x ++ y) = countCh c x + countCh c y := by
  induction x with
  | nil => simp [countCh]
  | cons d ds ih =>
      simp [countCh, ih]
      omega

theorem take_append_left (x y : Str) : ∀ k : Nat, k ≤ x.length → (x ++ y).take k = x.take k := by
  induction x with
  | nil =>
      intro k hk
      have hz : k = 0 := Nat.le_zero.mp (by simpa using hk)
      subst hz
      rfl
  | cons c cs ih =>
      intro k hk
      cases k with
      | zero => rfl
      | succ m =>
          have hm : m ≤ cs.length := by simpa using hk
          simp [List.take_succ_cons, ih m hm]

theorem foldl_balStep_replicate_open : ∀ (n : Nat) (a : Int),
    (List.replicate n '(').foldl balStep (wrap32 a) = wrap32 (a + n) := by
  intro n
  induction n with
  | zero => intro a; simp
  | succ m ih =>
      intro a
      rw [List.replicate_succ, List.foldl_cons]
      have h1 : balStep (wrap32 a) '(' = wrap32 (a + 1) := by
        rw [balStep, if_pos rfl, wrap32_add_left]
      rw [h1, ih (a + 1)]
      congr 1
      push_cast
      ring

theorem balanceCount_replicate_open (n : Nat) :
    balanceCount (List.replicate n '(') = wrap32 n := by
  have h0 : (0 : Int) = wrap32 0 := by rw [wrap32]; omega
  rw [balanceCount, h0, foldl_balStep_replicate_open n 0]
  norm_num

theorem foldl_balStep_filter : ∀ (s : Str) (a : Int),
    (s.filter fun c => c == '(' || c == ')').foldl balStep a = s.foldl balStep a := by
  intro s
  induction s with
  | nil => intro a; rfl
  | cons c cs ih =>
      intro a
      by_cases h1 : c = '('
      · simp [List.filter_cons, h1, ih]
      · by_cases h2 : c = ')'
        · simp [List.filter_cons, h1, h2, ih]
        · have hstep : balStep a c = a := by rw [balStep, if_neg h1, if_neg h2]
          simp [List.filter_cons, h1, h2, ih, hstep]

theorem balanceCount_eq_netCount (s : Str)
    (h : ∀ k, k ≤ s.length →
      -2147483648 ≤ netCount (s.take k) ∧ netCount (s.take k) ≤ 2147483647) :
    balanceCount s = netCount s := by
  induction s using List.reverseRecOn with
  | nil => rfl
  | append_singleton t c ih =>
      have ht : ∀ k, k ≤ t.length →
          -2147483648 ≤ netCount (t.take k) ∧ netCount (t.take k) ≤ 2147483647 := by
        intro k hk
        have h1 := h k (by simp; omega)
        rwa [take_append_left t [c] k hk] at h1
      have hbc : balanceCount t = netCount t := ih ht
      have hs : -2147483648 ≤ netCount (t ++ [c]) ∧ netCount (t ++ [c]) ≤ 2147483647 := by
        have h2 := h (t ++ [c]).length (le_refl _)
        rwa [List.take_length] at h2
      rw [balanceCount, List.foldl_append]
      rw [show t.foldl balStep 0 = balanceCount t from rfl, hbc]
      simp only [List.foldl_cons, List.foldl_nil]
      by_cases h1 : c = '('
      · subst h1
        have hnet : netCount (t ++ ['(']) = netCount t + 1 := by
          rw [netCount, netCount, countCh_append, countCh_append]
          simp [countCh]
          omega
        rw [balStep, if_pos rfl, ← hnet]
        exact wrap32_eq_self _ hs.1 hs.2
      · by_cases h2 : c = ')'
        · subst h2
          have hnet : netCount (t ++ [')']) = netCount t - 1 := by
            rw [netCount, netCount, countCh_append, countCh_append]
            simp [countCh]
            omega
          rw [balStep, if_neg (by decide), if_pos rfl, ← hnet]
          exact wrap32_eq_self _ hs.1 hs.2
        · have hnet : netCount (t ++ [c]) = netCount t := by
            rw [netCount, netCount, countCh_append, countCh_append]
            simp [countCh, h1, h2]
          rw [balStep, if_neg h1, if_neg h2, hnet]

theorem delRebuild_eq (ls : List Str) : ∀ n : Nat,
    delRebuild ls n = (ls[n]?, joinLines (ls.eraseIdx n)) := by
  induction ls with
  | nil => intro n; simp [delRebuild, joinLines, List.eraseIdx]
  | cons l ls ih =>
      intro n
      cases n with
      | zero => simp [delRebuild, List.eraseIdx]
      | succ m => simp [delRebuild, List.eraseIdx, ih m, joinLines]

theorem linesAux_ne_nil : ∀ (s cur : Str), cur ≠ [] ∨ s ≠ [] → linesAux cur s ≠ [] := by
  intro s
  induction s with
  | nil =>
      intro cur h
      rcases h with h | h
      · simp [linesAux, h]
      · exact absurd rfl h
  | cons c cs ih =>
      intro cur _
      by_cases hc : c = '\n'
      · simp [linesAux, hc]
      · have := ih (cur ++ [c]) (Or.inl (by simp))
        simpa [linesAux, hc] using this

theorem lines_ne_nil (buf : Str) (h : buf ≠ []) : lines buf ≠ [] :=
  linesAux_ne_nil buf [] (Or.inr h)

theorem joinLines_concat : ∀ L : List Str, L ≠ [] → ∃ y : Str, joinLines L = y ++ ['\n'] := by
  intro L
  induction L with
  | nil => intro h; exact absurd rfl h
  | cons l ls ih =>
      intro _
      cases ls with
      | nil => exact ⟨l, rfl⟩
      | cons m ms =>
          obtain ⟨y, hy⟩ := ih (by simp)
          refine ⟨l ++ '\n' :: y, ?_⟩
          show l ++ '\n' :: joinLines (m :: ms) = (l ++ '\n' :: y) ++ ['\n']
          rw [hy]
          simp

theorem joinLines_ends_newline (L : List Str) (h : L ≠ []) :
    (joinLines L).getLast? = some '\n' := by
  obtain ⟨y, hy⟩ := joinLines_concat L h
  rw [hy, List.getLast?_concat]

theorem linesAux_no_nl : ∀ (s cur : Str), (∀ c ∈ s, c ≠ '\n') →
    linesAux cur s = if cur ++ s = [] then [] else [cur ++ s] := by
  intro s
  induction s with
  | nil => intro cur _; simp [linesAux]
  | cons c cs ih =>
      intro cur h
      have hc : ¬ c = '\n' := h c (by simp)
      have hcs : ∀ d ∈ cs, d ≠ '\n' := fun d hd => h d (by simp [hd])
      rw [linesAux, if_neg hc, ih (cur ++ [c]) hcs]
      simp

theorem appendLineChars_closers (ind : Nat) : ∀ (l buf : Str), (∀ c ∈ l, c = ')') →
    appendLineChars ind buf l = buf ++ l := by
  intro l
  induction l with
  | nil => intro buf _; simp [appendLineChars]
  | cons c cs ih =>
      intro buf h
      have hc : c = ')' := h c (by simp)
      subst hc
      rw [appendLineChars, if_pos rfl, ih (buf ++ [')']) (fun d hd => h d (by simp [hd]))]
      simp

theorem byteTake_len : ∀ (s : Str) (n : Nat) (a : Str), byteTake n s = some a → byteLen a = n := by
  intro s
  induction s with
  | nil =>
      intro n a h
      cases n with
      | zero => simp [byteTake] at h; subst h; rfl
      | succ m => simp [byteTake] at h
  | cons c cs ih =>
      intro n a h
      cases n with
      | zero => simp [byteTake] at h; subst h; rfl
      | succ m =>
          rw [byteTake] at h
          by_cases hk : utf8Size c ≤ m + 1
          · rw [if_pos hk] at h
            obtain ⟨a', ha', rfl⟩ := Option.map_eq_some'.mp h
            have hl := ih (m + 1 - utf8Size c) a' ha'
            simp only [byteLen, hl]
            omega
          · rw [if_neg hk] at h
            simp at h

theorem byteDrop_len : ∀ (s : Str) (n : Nat) (b : Str), byteDrop n s = some b →
    byteLen b = byteLen s - n ∧ n ≤ byteLen s := by
  intro s
  induction s with
  | nil =>
      intro n b h
      cases n with
      | zero => simp [byteDrop] at h; subst h; simp [byteLen]
      | succ m => simp [byteDrop] at h
  | cons c cs ih =>
      intro n b h
      cases n with
      | zero =>
          simp [byteDrop] at h
          subst h
          simp
      | succ m =>
          rw [byteDrop] at h
          by_cases hk : utf8Size c ≤ m + 1
          · rw [if_pos hk] at h
            have hl := ih (m + 1 - utf8Size c) b h
            simp only [byteLen]
            omega
          · rw [if_neg hk] at h
            simp at h

theorem byteLen_append (x y : Str) : byteLen (x ++ y) = byteLen x + byteLen y := by
  induction x with
  | nil => simp [byteLen]
  | cons c cs ih => simp [byteLen, ih]; omega

theorem dropWhile_append_cases (p : Char → Bool) : ∀ x y : Str,
    (x ++ y).dropWhile p =
      if x.dropWhile p = [] then y.dropWhile p else x.dropWhile p ++ y := by
  intro x
  induction x with
  | nil => intro y; simp
  | cons c cs ih =>
      intro y
      simp only [List.cons_append, List.dropWhile_cons]
      by_cases hc : p c
      · simp [hc, ih y]
      · simp [hc]

theorem dropWhile_head_false (p : Char → Bool) : ∀ (x : Str) (c : Char) (t : Str),
    x.dropWhile p = c :: t → p c = false := by
  intro x
  induction x with
  | nil => intro c t h; simp at h
  | cons d ds ih =>
      intro c t h
      rw [List.dropWhile_cons] at h
      by_cases hd : p d
      · rw [if_pos hd] at h
        exact ih c t h
      · rw [if_neg hd] at h
        injection h with h1 h2
        subst h1
        exact Bool.eq_false_iff.mpr hd

theorem trimStart_cons_nonws (c : Char) (s : Str) (h : isRustWhitespace c = false) :
    trimStart (c :: s) = c :: s := by
  simp [trimStart, List.dropWhile_cons, h]

theorem trimEnd_concat_nonws (s : Str) (c : Char) (h : isRustWhitespace c = false) :
    trimEnd (s ++ [c]) = s ++ [c] := by
  simp [trimEnd, List.dropWhile_cons, h]

theorem trimEnd_concat_nl (s : Str) : trimEnd (s ++ ['\n']) = trimEnd s := by
  have hnl : isRustWhitespace '\n' = true := by decide
  simp [trimEnd, List.dropWhile_cons, hnl]

theorem wrap_cons (x : Str) :
    as_discord_code x = btChar :: btChar :: btChar :: (lispTag ++ (x ++ nlFence)) := by
  simp [as_discord_code, fence]

theorem trim_wrap (x : Str) : trim (as_discord_code x) = as_discord_code x := by
  have hb : isRustWhitespace btChar = false := by decide
  have h1 : trimStart (as_discord_code x) = as_discord_code x := by
    rw [wrap_cons]
    exact trimStart_cons_nonws _ _ hb
  have h2 : as_discord_code x =
      (btChar :: btChar :: btChar :: (lispTag ++ x ++ ['\n', btChar, btChar])) ++ [btChar] := by
    simp [as_discord_code, fence, nlFence]
  rw [trim, h1, h2, trimEnd_concat_nonws _ _ hb]

theorem stripFront_wrap (x : Str) : stripFront (as_discord_code x) = x ++ nlFence := by
  have h1 : stripPre fence (btChar :: btChar :: btChar :: (lispTag ++ (x ++ nlFence))) =
      some (lispTag ++ (x ++ nlFence)) := by
    simp [stripPre, fence]
  have h2 : stripPre lispTag (lispTag ++ (x ++ nlFence)) = some (x ++ nlFence) := by
    simp [stripPre, lispTag]
  simp only [stripFront, trim_wrap]
  rw [wrap_cons, h1]
  simp [h2]

theorem stripBack_wrapped (x : Str) : stripBack (x ++ nlFence) =
    (if trimStart x = [] then [] else trimStart x ++ ['\n']) := by
  cases hx : trimStart x with
  | nil =>
      have hts : trimStart (x ++ nlFence) = fence := by
        rw [trimStart, dropWhile_append_cases]
        rw [trimStart] at hx
        rw [if_pos hx]
        decide
      have h3 : trim (x ++ nlFence) = fence := by
        rw [trim, hts]
        decide
      have h4 : stripSuf fence fence = some [] := by decide
      simp only [stripBack, h3, h4]
      simp
  | cons c t =>
      have hts : trimStart (x ++ nlFence) = (c :: t) ++ nlFence := by
        rw [trimStart, dropWhile_append_cases]
        rw [trimStart] at hx
        rw [hx]
        simp
      have h3 : trim (x ++ nlFence) = (c :: t) ++ nlFence := by
        rw [trim, hts]
        have hsh : (c :: t) ++ nlFence = ((c :: t) ++ ['\n', btChar, btChar]) ++ [btChar] := by
          simp [nlFence, fence]
        rw [hsh, trimEnd_concat_nonws _ _ (by decide)]
      have h4 : stripSuf fence ((c :: t) ++ nlFence) = some ((c :: t) ++ ['\n']) := by
        simp [stripSuf, nlFence, fence, stripPre, List.reverse_append]
      simp only [stripBack, h3, h4]
      simp

theorem strip_wrap (x : Str) : strip_discord_code (as_discord_code x) = trim x := by
  rw [strip_discord_code, stripFront_wrap, stripBack_wrapped]
  cases hx : trimStart x with
  | nil =>
      rw [if_pos rfl]
      have htx : trim x = [] := by rw [trim, hx]; rfl
      rw [htx]
      rfl
  | cons c t =>
      have hc : isRustWhitespace c = false := dropWhile_head_false _ x c t hx
      rw [if_neg (by simp)]
      rw [trim]
      have h5 : trimStart ((c :: t) ++ ['\n']) = (c :: t) ++ ['\n'] := by
        have := trimStart_cons_nonws c (t ++ ['\n']) hc
        simpa using this
      rw [h5, trimEnd_concat_nl]
      rw [trim, hx]

/-! ## Claim theorems -/

/-- C2 counterexample: the text of 2147483648 opening parentheses has
2147483648 more openers than closers, so the claim says the scan reports
`NoMissing 2147483648` (`MissingClosers`); but the `i32` counter wraps to
`-2147483648` on the last character, and the scan classifies the text as
`NoTrailing 2147483648` (`ExtraClosers`) instead. -/
theorem c2_counterexample :
    countCh ')' (List.replicate 2147483648 '(') <
      countCh '(' (List.replicate 2147483648 '(') ∧
    balance (List.replicate 2147483648 '(') = Balanced.NoTrailing 2147483648 ∧
    Balanced.NoTrailing 2147483648 ≠
      Balanced.NoMissing (countCh '(' (List.replicate 2147483648 '(') -
        countCh ')' (List.replicate 2147483648 '(')) := by
  have hopen : ∀ n : Nat, countCh '(' (List.replicate n '(') = n := by
    intro n
    induction n with
    | zero => rfl
    | succ m ih =>
        rw [List.replicate_succ, countCh, ih, if_pos rfl]
        omega
  have hclose : ∀ n : Nat, countCh ')' (List.replicate n '(') = 0 := by
    intro n
    induction n with
    | zero => rfl
    | succ m ih =>
        rw [List.replicate_succ, countCh, ih, if_neg (by decide)]
  refine ⟨?_, ?_, ?_⟩
  · rw [hopen, hclose]
    omega
  · rw [balance, balanceCount_replicate_open]
    have hw : wrap32 ((2147483648 : Nat) : Int) = -2147483648 := by
      rw [wrap32]
      omega
    rw [hw]
    decide
  · exact fun hcon => Balanced.noConfusion hcon

/-- C2 (amended): for every text whose running net bracket count stays in the
`i32` range — every prefix has openers-minus-closers between `-2147483648`
and `2147483647` — the balance classification is the pure function of the
net bracket count: `NoMissing n` (the spec's `MissingClosers`) when there are
`n` more `'('` than `')'`, `NoTrailing n` (the spec's `ExtraClosers`) when
there are `n` more `')'`, and `Yes` (`Balanced`) when the counts agree;
characters other than the two bracket characters are ignored by the scan
unconditionally. -/
theorem c2_balance_is_net_count (s : Str)
    (h : ∀ k, k ≤ s.length →
      -2147483648 ≤ netCount (s.take k) ∧ netCount (s.take k) ≤ 2147483647) :
    balance s =
      (if countCh '(' s = countCh ')' s then Balanced.Yes
       else if countCh ')' s < countCh '(' s then
         Balanced.NoMissing (countCh '(' s - countCh ')' s)
       else Balanced.NoTrailing (countCh ')' s - countCh '(' s)) ∧
    balance (s.filter fun c => c == '(' || c == ')') = balance s := by
  constructor
  · rw [balance, balanceCount_eq_netCount s h, netCount]
    split_ifs <;> first
      | rfl
      | (exfalso; omega)
      | (congr 1; omega)
  · simp only [balance, balanceCount, foldl_balStep_filter]

/-- C2 witness: a concrete run of the balance scan through the theorem, the
range hypothesis discharged by evaluation. -/
theorem c2_witness : balance ("((foo)".toList) = Balanced.NoMissing 1 := by
  have h := (c2_balance_is_net_count ("((foo)".toList) (by decide)).1
  exact h.trans (by decide)

/-- C6: on a non-empty buffer and a non-negative relative index, `del` removes
exactly the line at saturating absolute index `total - (k + 1)` — an index
always within bounds — returning that line and re-joining the remaining
lines; the index is `total - 1` (the last line) for `k = 0` and `0` (the
first line) for `k ≥ total`. -/
theorem c6_del_removes_indexed_line (buf : Str) (k : Int) (hb : buf ≠ []) (hk : 0 ≤ k) :
    del buf k =
      ((lines buf)[(lines buf).length - (k.toNat + 1)]?,
        joinLines ((lines buf).eraseIdx ((lines buf).length - (k.toNat + 1)))) ∧
    (lines buf).length - (k.toNat + 1) < (lines buf).length ∧
    (k = 0 → (lines buf).length - (k.toNat + 1) = (lines buf).length - 1) ∧
    ((lines buf).length ≤ k.toNat → (lines buf).length - (k.toNat + 1) = 0) := by
  have h1 : ¬ k < 0 := not_lt.mpr hk
  have h2 : lines buf ≠ [] := lines_ne_nil buf hb
  have h3 : 0 < (lines buf).length := List.length_pos.mpr h2
  refine ⟨?_, by omega, by intro hk0; subst hk0; simp, by intro hge; omega⟩
  rw [del, if_neg h1, delRebuild_eq]

/-- C6 witness: deleting relative line 0 of the two-line buffer `"(a\nb)"`. -/
theorem c6_witness : del ("(a\nb)".toList) 0 = (some ("b)".toList), "(a\n".toList) := by
  have h := (c6_del_removes_indexed_line ("(a\nb)".toList) 0 (by decide) (by decide)).1
  exact h.trans (by decide)

/-- C7: a negative relative index deletes nothing: `del` returns `none` and
leaves the buffer unchanged. -/
theorem c7_del_negative_noop (buf : Str) (k : Int) (h : k < 0) : del buf k = (none, buf) := by
  rw [del, if_pos h]

/-- C7 witness: deleting relative line `-1` of the buffer `"(a"`. -/
theorem c7_witness : del ("(a".toList) (-1) = (none, "(a".toList) :=
  c7_del_negative_noop ("(a".toList) (-1) (by decide)

/-- C8: appending a fragment that strips to closing brackets only appends the
closers directly to the buffer — no newline (and no indent) is inserted
before any of them. -/
theorem c8_append_closers_hug (buf frag : Str)
    (h : ∀ c ∈ strip_discord_code frag, c = ')') :
    append buf frag = buf ++ strip_discord_code frag := by
  rw [append, lines]
  have hnl : ∀ c ∈ strip_discord_code frag, c ≠ '\n' := by
    intro c hc
    rw [h c hc]
    decide
  rw [linesAux_no_nl _ [] hnl]
  by_cases hs : strip_discord_code frag = []
  · simp [hs]
  · rw [if_neg (by simpa using hs)]
    simp only [List.foldl_cons, List.foldl_nil, List.nil_append]
    exact appendLineChars_closers _ _ _ h

/-- C8 witness: appending `"))"` to the buffer `"((x"`. -/
theorem c8_witness : append ("((x".toList) ("))".toList) = "((x))".toList := by
  have h := c8_append_closers_hug ("((x".toList) ("))".toList) (by decide)
  exact h.trans (by decide)

/-- C10 counterexample: deleting relative line 0 of the one-line buffer
`"(a)"` succeeds and leaves the empty buffer, so a buffer that did not end in
a newline still does not end in one after a successful delete. -/
theorem c10_counterexample :
    (del ("(a)".toList) 0).1 = some ("(a)".toList) ∧
    (del ("(a)".toList) 0).2 = [] ∧
    ("(a)".toList).getLast? ≠ some '\n' ∧
    ((del ("(a)".toList) 0).2).getLast? ≠ some '\n' := by
  refine ⟨by decide, by decide, by decide, by decide⟩

/-- C10 (amended): on a non-empty buffer and non-negative index, `del`
rebuilds the buffer as the surviving lines each followed by a newline, and
whenever at least one line survives the new buffer ends in a newline. -/
theorem c10_del_rejoins_lines (buf : Str) (k : Int) (_hb : buf ≠ []) (hk : 0 ≤ k) :
    (del buf k).2 =
      joinLines ((lines buf).eraseIdx ((lines buf).length - (k.toNat + 1))) ∧
    ((lines buf).eraseIdx ((lines buf).length - (k.toNat + 1)) ≠ [] →
      ((del buf k).2).getLast? = some '\n') := by
  have h1 : ¬ k < 0 := not_lt.mpr hk
  have he : (del buf k).2 =
      joinLines ((lines buf).eraseIdx ((lines buf).length - (k.toNat + 1))) := by
    rw [del, if_neg h1, delRebuild_eq]
  refine ⟨he, fun hne => ?_⟩
  rw [he]
  exact joinLines_ends_newline _ hne

/-- C10 witness: deleting the last line of `"(a\nb)"` leaves `"(a\n"`, which
ends in a newline although the original buffer did not. -/
theorem c10_witness :
    (del ("(a\nb)".toList) 0).2 = "(a\n".toList ∧
    ((del ("(a\nb)".toList) 0).2).getLast? = some '\n' := by
  have h := c10_del_rejoins_lines ("(a\nb)".toList) 0 (by decide) (by decide)
  exact ⟨h.1.trans (by decide), h.2 (by decide)⟩

/-- C4 counterexample: `"a "` contains no backtick, yet stripping the wrapped
text yields `"a"`, not `"a "` — the round trip trims surrounding whitespace. -/
theorem c4_counterexample :
    btChar ∉ ("a ".toList) ∧
    strip_discord_code (as_discord_code ("a ".toList)) = "a".toList ∧
    "a ".toList ≠ "a".toList := by
  refine ⟨by decide, ?_, by decide⟩
  exact (strip_wrap ("a ".toList)).trans (by decide)

/-- C4 (amended): for every text with no backtick and no leading or trailing
whitespace, stripping the markup wrapper is a left inverse of applying it
(in general the round trip returns the trimmed text). -/
theorem c4_strip_wrap_of_trimmed (x : Str) (_hb : btChar ∉ x) (h : trim x = x) :
    strip_discord_code (as_discord_code x) = x :=
  (strip_wrap x).trans h

/-- C4 witness: the round trip at the trimmed backtick-free text `"(a b)"`. -/
theorem c4_witness : strip_discord_code (as_discord_code ("(a b)".toList)) = "(a b)".toList :=
  c4_strip_wrap_of_trimmed ("(a b)".toList) (by decide) (by decide)

/-- C1 counterexample: in one session the first pass evaluates
`(define x 1)` and ends with `x` in its environment, yet the second pass,
evaluating the buffer `x`, records an undefined-symbol error — the binding
defined by the first evaluation pass is not defined during the later one,
because `UserCode::eval` rebuilds the environment with `LisEnv::new` on
every call. -/
theorem c1_counterexample :
    (((sessionEvalTrace mParse mEvalExpr ([] : MEnv) ["(define x 1)".toList, "x".toList])[0]?).map
      (fun st => st.env)) = some ["x".toList] ∧
    (((sessionEvalTrace mParse mEvalExpr ([] : MEnv) ["(define x 1)".toList, "x".toList])[1]?).map
      (fun st => st.results)) = some [(Except.error ("undefined symbol x".toList), [])] := by
  exact ⟨rfl, rfl⟩

/-- C1 (amended): the environment does not persist across evaluation passes —
every entry in a session's trace is the pass obtained by starting from the
fresh `LisEnv::new` environment on its own buffer — while bindings do
accumulate between expressions inside one pass, the second half of a pass
continuing from the state the first half produced. -/
theorem c1_fresh_env_every_pass {Env V E X P : Type}
    (parse : Str → List (Except P X)) (evalExpr : Env → X → Except E V × Str × Env)
    (env0 : Env) :
    (∀ (bufs : List Str) (i : Nat),
      (sessionEvalTrace parse evalExpr env0 bufs)[i]? =
        (bufs[i]?).map (fun b => runPass evalExpr (lisEnvNew env0) (parse b))) ∧
    (∀ (st : LisEnvSt Env V E) (xs ys : List (Except P X)),
      runPass evalExpr st (xs ++ ys) = runPass evalExpr (runPass evalExpr st xs) ys) := by
  constructor
  · intro bufs i
    simp [sessionEvalTrace]
  · intro st xs ys
    induction xs generalizing st with
    | nil => rfl
    | cons hd tl ih => cases hd <;> simp [runPass, ih]

/-- C1 witness: the amended theorem at the concrete modelled evaluator — the
one-buffer pass over `(define x 1)` followed by `x` is the two halves run in
sequence, so the reference to `x` succeeds inside a single pass. -/
theorem c1_witness :
    runPass mEvalExpr (lisEnvNew ([] : MEnv)) (mParse ("(define x 1)\nx".toList)) =
      runPass mEvalExpr
        (runPass mEvalExpr (lisEnvNew ([] : MEnv))
          ([Except.ok MExpr.defX] : List (Except Str MExpr)))
        ([Except.ok MExpr.refX] : List (Except Str MExpr)) := by
  have h := (c1_fresh_env_every_pass mParse mEvalExpr ([] : MEnv)).2
    (lisEnvNew ([] : MEnv)) ([Except.ok MExpr.defX] : List (Except Str MExpr))
    ([Except.ok MExpr.refX] : List (Except Str MExpr))
  exact (by rfl : mParse ("(define x 1)\nx".toList) =
    ([Except.ok MExpr.defX] : List (Except Str MExpr)) ++ [Except.ok MExpr.refX]) ▸ h

/-- C3: the rendering of results is not total — a successful value whose
textual form is 66 bytes with byte 32 inside a two-byte character makes the
`Display` implementation byte-slice at a non-character boundary, which in the
Rust source panics (modelled as `none`) instead of degrading to a displayable
string. -/
theorem c3_display_panics :
    displayResults (fun v : Str => v) (fun e : Str => e) [(Except.ok badVal, [])] = none ∧
    64 < byteLen badVal ∧ byteTake 32 badVal = none := by
  exact ⟨rfl, by decide, by decide⟩

/-- C9: a pass over the parse results records exactly one outcome per
successfully parsed expression, in order, against the threaded environment:
parse errors are skipped without leaving any outcome, and an expression's
runtime error is recorded like any result — the pass never stops early, so
the number of recorded outcomes equals the number of `Ok` parses. -/
theorem c9_pass_skips_errors_continues {Env V E X P : Type}
    (evalExpr : Env → X → Except E V × Str × Env) :
    (∀ (st : LisEnvSt Env V E) (items : List (Except P X)),
      runPass evalExpr st items = evalSeq evalExpr st (okExprs items)) ∧
    (∀ (st : LisEnvSt Env V E) (es : List X),
      (evalSeq evalExpr st es).results.length = st.results.length + es.length) := by
  constructor
  · intro st items
    induction items generalizing st with
    | nil => rfl
    | cons hd tl ih =>
        cases hd with
        | ok e => simp [runPass, okExprs, List.filterMap_cons, Except.toOption, evalSeq, ih]
        | error p => simp [runPass, okExprs, List.filterMap_cons, Except.toOption, ih]
  · intro st es
    induction es generalizing st with
    | nil => simp [evalSeq]
    | cons e es ih =>
        rw [evalSeq, ih]
        simp [lisEnvEval]
        omega

/-- C9 witness: a concrete pass with a parse error between two evaluations —
the error leaves no outcome and both `Ok` parses are evaluated. -/
theorem c9_witness :
    runPass mEvalExpr (lisEnvNew ([] : MEnv))
        [Except.ok MExpr.defX, Except.error ("parse error".toList), Except.ok MExpr.refX] =
      evalSeq mEvalExpr (lisEnvNew ([] : MEnv))
        (okExprs [Except.ok MExpr.defX, Except.error ("parse error".toList),
          Except.ok MExpr.refX]) :=
  (c9_pass_skips_errors_continues mEvalExpr).1 (lisEnvNew ([] : MEnv))
    [Except.ok MExpr.defX, Except.error ("parse error".toList), Except.ok MExpr.refX]

/-- C5 counterexample: the 49-character rendering `mediumVal` (16 copies of a
two-byte character and 33 ASCII characters) has length at most 64 characters
yet is not shown in full, and the truncation keeps its first 16 — not 32 —
characters: the thresholds and slices of the implementation are in UTF-8
bytes, not characters. -/
theorem c5_counterexample :
    mediumVal.length = 49 ∧
    renderTrunc mediumVal = some (List.replicate 16 'é' ++ ellipsis ++ List.replicate 29 'a') ∧
    renderTrunc mediumVal ≠ some mediumVal := by
  refine ⟨by decide, by decide, by decide⟩

/-- C5 (amended): a rendered value of more than 64 UTF-8 bytes whose byte
offsets 32 and `len - 29` fall on character boundaries is truncated to its
first 32 bytes, an ellipsis, and its last 29 bytes — 64 bytes in total — and
a rendered value of at most 64 bytes is shown in full. -/
theorem c5_truncates_at_byte_lengths (v : Str) :
    (byteLen v ≤ 64 → renderTrunc v = some v) ∧
    (∀ a b : Str, 64 < byteLen v → byteTake 32 v = some a →
      byteDrop (byteLen v - 29) v = some b →
      renderTrunc v = some (a ++ ellipsis ++ b) ∧ byteLen (a ++ ellipsis ++ b) = 64) := by
  constructor
  · intro h
    rw [renderTrunc, if_neg (by omega)]
  · intro a b h ha hb
    constructor
    · rw [renderTrunc, if_pos h, ha, hb]
    · have h1 := byteTake_len v 32 a ha
      have h2 := byteDrop_len v (byteLen v - 29) b hb
      rw [byteLen_append, byteLen_append, h1]
      have h3 : byteLen ellipsis = 3 := by decide
      omega

/-- C5 witness: a 100-byte ASCII rendering is shown as its first 32
characters, an ellipsis and its last 29 characters, 64 bytes in total. -/
theorem c5_witness :
    renderTrunc (List.replicate 100 'a') =
      some (List.replicate 32 'a' ++ ellipsis ++ List.replicate 29 'a') ∧
    byteLen (List.replicate 32 'a' ++ ellipsis ++ List.replicate 29 'a') = 64 :=
  (c5_truncates_at_byte_lengths (List.replicate 100 'a')).2
    (List.replicate 32 'a') (List.replicate 29 'a') (by decide) (by decide) (by decide)

end Liz
